import Mathlib

/-!
Verification of the detection-fusion and escalation pipeline of the
`final-roborta-keyboard` repository.

The Python sources are shallowly embedded: strings are `List Char`
(the embedding is faithful on the ASCII fragment; Unicode NFKC
normalization is the identity there), machine integers are `Int`/`Nat`,
floats (classifier probabilities and thresholds) are `ℚ`, and the
escalator's mutable per-key dictionary is an explicit `String → Option Nat`
map threaded through `step`.
-/

/-- A detection span, `src/text_sanitizer.py` / `src/keyboard_hook.py`:
`Span = Tuple[int, int, str, str]  # (start, end, term, kind)`. -/
structure Span where
  st : Int
  ed : Int
  term : String
  kind : String
deriving DecidableEq, Repr

/-- The sort key used by both `_merge_spans` implementations:
Python `sorted(spans, key=lambda x: (x[0], x[1]))`, i.e. lexicographic
on `(start, end)`. -/
def spanLe (a b : Span) : Prop :=
  a.st < b.st ∨ (a.st = b.st ∧ a.ed ≤ b.ed)

instance : DecidableRel spanLe := fun a b => by
  unfold spanLe; infer_instance

instance : IsTotal Span spanLe := by
  constructor
  intro a b
  unfold spanLe
  omega

instance : IsTrans Span spanLe := by
  constructor
  intro a b c hab hbc
  unfold spanLe at *
  omega

/-- Python's `sorted` is a stable sort; a stable insertion sort over the
same lexicographic key computes the same list. -/
def sortSpans (spans : List Span) : List Span :=
  List.insertionSort spanLe spans

/-- The merged bounds of an accumulated span `p` and an overlapping span
`s`: `(pst, max(ped, ed), pterm, <kind chosen by the variant>)`. -/
def mergeTwo (ck : Span → Span → String) (p s : Span) : Span :=
  { st := p.st, ed := max p.ed s.ed, term := p.term, kind := ck p s }

/-- One iteration of the `for st, ed, term, kind in spans` loop of
`_merge_spans`; the accumulator list is kept reversed so the span the
Python code calls `merged[-1]` is the head. -/
def mergeInto (ck : Span → Span → String) (acc : List Span) (s : Span) : List Span :=
  match acc with
  | [] => [s]
  | p :: t => if s.st ≤ p.ed then mergeTwo ck p s :: t else s :: p :: t

/-- `_merge_spans`, parametrized by how the merged span's kind is chosen
(the only difference between the `text_sanitizer.py` and
`keyboard_hook.py`/`main.py` copies). -/
def mergeSpansWith (ck : Span → Span → String) (spans : List Span) : List Span :=
  if spans.isEmpty then []
  else ((sortSpans spans).foldl (mergeInto ck) []).reverse

/-- `_merge_spans` from `src/text_sanitizer.py`: the merged span keeps the
accumulated span's kind unconditionally
(`merged[-1] = (pst, max(ped, ed), pterm, pkind)`). -/
def mergeSpansTS (spans : List Span) : List Span :=
  mergeSpansWith (fun p _ => p.kind) spans

/-- `_merge_spans` from `src/main.py` and `src/keyboard_hook.py`: the merged
span keeps the accumulated kind unless it is `"ml"`
(`pkind if pkind != "ml" else kind`). -/
def mergeSpansHook (spans : List Span) : List Span :=
  mergeSpansWith (fun p s => if p.kind = "ml" then s.kind else p.kind) spans

/-- Recursive presentation of the merge loop, used to reason about the
`foldl` with its reversed accumulator. -/
def mergeAux (ck : Span → Span → String) (cur : Span) : List Span → List Span
  | [] => [cur]
  | s :: rest =>
      if s.st ≤ cur.ed then mergeAux ck (mergeTwo ck cur s) rest
      else cur :: mergeAux ck s rest

theorem foldl_mergeInto_eq (ck : Span → Span → String) :
    ∀ (rest : List Span) (cur : Span) (t : List Span),
      (rest.foldl (mergeInto ck) (cur :: t)).reverse = t.reverse ++ mergeAux ck cur rest := by
  intro rest
  induction rest with
  | nil => intro cur t; simp [mergeAux]
  | cons s rest ih =>
      intro cur t
      by_cases h : s.st ≤ cur.ed
      · simp [List.foldl_cons, mergeInto, h, ih, mergeAux]
      · simp [List.foldl_cons, mergeInto, h, ih, mergeAux]

theorem mergeSpansWith_cons (ck : Span → Span → String) (spans : List Span)
    (x : Span) (xs : List Span) (h : sortSpans spans = x :: xs) :
    mergeSpansWith ck spans = mergeAux ck x xs := by
  have hne : ¬ spans.isEmpty := by
    intro hcon
    rw [List.isEmpty_iff] at hcon
    subst hcon
    simp [sortSpans, List.insertionSort] at h
  unfold mergeSpansWith
  rw [if_neg hne, h]
  simpa using foldl_mergeInto_eq ck xs x []

/-- A character position `p` lies inside some span of `l`
(half-open intervals `[st, ed)`). -/
def covered (p : Int) (l : List Span) : Prop :=
  ∃ s ∈ l, s.st ≤ p ∧ p < s.ed

instance (p : Int) (l : List Span) : Decidable (covered p l) := by
  unfold covered
  infer_instance

theorem covered_nil (p : Int) : ¬ covered p [] := by
  simp [covered]

theorem covered_cons (p : Int) (s : Span) (l : List Span) :
    covered p (s :: l) ↔ (s.st ≤ p ∧ p < s.ed) ∨ covered p l := by
  simp [covered]

theorem covered_of_perm {l l' : List Span} (h : l.Perm l') (p : Int) :
    covered p l ↔ covered p l' := by
  unfold covered
  constructor
  · rintro ⟨s, hs, hc⟩; exact ⟨s, h.mem_iff.mp hs, hc⟩
  · rintro ⟨s, hs, hc⟩; exact ⟨s, h.mem_iff.mpr hs, hc⟩

theorem mergeAux_covered (ck : Span → Span → String) :
    ∀ (rest : List Span) (cur : Span),
      (∀ s ∈ rest, cur.st ≤ s.st) →
      rest.Pairwise (fun a b => a.st ≤ b.st) →
      ∀ p : Int, covered p (mergeAux ck cur rest) ↔ covered p (cur :: rest) := by
  intro rest
  induction rest with
  | nil => intro cur _ _ p; simp [mergeAux]
  | cons s rest ih =>
      intro cur hs hpw p
      rw [List.pairwise_cons] at hpw
      by_cases h : s.st ≤ cur.ed
      · rw [mergeAux, if_pos h]
        have hcs : cur.st ≤ s.st := hs s (List.mem_cons_self s rest)
        have hs' : ∀ x ∈ rest, (mergeTwo ck cur s).st ≤ x.st := by
          intro x hx
          have := hpw.1 x hx
          simp only [mergeTwo]
          omega
        rw [ih (mergeTwo ck cur s) hs' hpw.2 p]
        rw [covered_cons, covered_cons, covered_cons]
        simp only [mergeTwo]
        constructor
        · rintro (⟨h1, h2⟩ | hrest)
          · rcases le_or_lt cur.ed p with hle | hlt
            · right; left
              constructor
              · omega
              · omega
            · left; exact ⟨h1, hlt⟩
          · right; right; exact hrest
        · rintro (⟨h1, h2⟩ | ⟨h1, h2⟩ | hrest)
          · exact Or.inl ⟨h1, by omega⟩
          · exact Or.inl ⟨by omega, by omega⟩
          · exact Or.inr hrest
      · rw [mergeAux, if_neg h]
        have hs' : ∀ x ∈ rest, s.st ≤ x.st := fun x hx => hpw.1 x hx
        rw [covered_cons, ih s hs' hpw.2 p]
        simp only [covered_cons]

/-- The first span emitted by the merge loop starts where the currently
accumulated span starts. -/
theorem mergeAux_head (ck : Span → Span → String) :
    ∀ (rest : List Span) (cur : Span),
      ∃ e l, mergeAux ck cur rest = e :: l ∧ e.st = cur.st := by
  intro rest
  induction rest with
  | nil => intro cur; exact ⟨cur, [], rfl, rfl⟩
  | cons s rest ih =>
      intro cur
      by_cases h : s.st ≤ cur.ed
      · rw [mergeAux, if_pos h]
        obtain ⟨e, l, he, hst⟩ := ih (mergeTwo ck cur s)
        exact ⟨e, l, he, by simpa [mergeTwo] using hst⟩
      · rw [mergeAux, if_neg h]
        obtain ⟨e, l, he, hst⟩ := ih s
        exact ⟨cur, e :: l, by rw [he], rfl⟩

theorem mergeAux_sep (ck : Span → Span → String) :
    ∀ (rest : List Span) (cur : Span),
      (∀ s ∈ rest, cur.st ≤ s.st) →
      rest.Pairwise (fun a b => a.st ≤ b.st) →
      (mergeAux ck cur rest).Chain' (fun a b => a.ed < b.st) := by
  intro rest
  induction rest with
  | nil => intro cur _ _; simp [mergeAux]
  | cons s rest ih =>
      intro cur hs hpw
      rw [List.pairwise_cons] at hpw
      by_cases h : s.st ≤ cur.ed
      · rw [mergeAux, if_pos h]
        have hcs : cur.st ≤ s.st := hs s (List.mem_cons_self s rest)
        have hs' : ∀ x ∈ rest, (mergeTwo ck cur s).st ≤ x.st := by
          intro x hx
          have := hpw.1 x hx
          simp only [mergeTwo]
          omega
        exact ih (mergeTwo ck cur s) hs' hpw.2
      · rw [mergeAux, if_neg h]
        obtain ⟨e, l, he, hst⟩ := mergeAux_head ck rest s
        rw [he]
        refine List.Chain'.cons ?_ ?_
        · rw [hst]; omega
        · rw [← he]; exact ih s (fun x hx => hpw.1 x hx) hpw.2

theorem mergeAux_startSorted (ck : Span → Span → String) :
    ∀ (rest : List Span) (cur : Span),
      (∀ s ∈ rest, cur.st ≤ s.st) →
      rest.Pairwise (fun a b => a.st ≤ b.st) →
      (mergeAux ck cur rest).Chain' (fun a b => a.st ≤ b.st) := by
  intro rest
  induction rest with
  | nil => intro cur _ _; simp [mergeAux]
  | cons s rest ih =>
      intro cur hs hpw
      rw [List.pairwise_cons] at hpw
      by_cases h : s.st ≤ cur.ed
      · rw [mergeAux, if_pos h]
        have hcs : cur.st ≤ s.st := hs s (List.mem_cons_self s rest)
        have hs' : ∀ x ∈ rest, (mergeTwo ck cur s).st ≤ x.st := by
          intro x hx
          have := hpw.1 x hx
          simp only [mergeTwo]
          omega
        exact ih (mergeTwo ck cur s) hs' hpw.2
      · rw [mergeAux, if_neg h]
        obtain ⟨e, l, he, hst⟩ := mergeAux_head ck rest s
        rw [he]
        refine List.Chain'.cons ?_ ?_
        · rw [hst]; exact hs s (List.mem_cons_self s rest)
        · rw [← he]; exact ih s (fun x hx => hpw.1 x hx) hpw.2

theorem sortSpans_perm (spans : List Span) : (sortSpans spans).Perm spans :=
  List.perm_insertionSort spanLe spans

theorem sortSpans_sorted (spans : List Span) :
    (sortSpans spans).Pairwise (fun a b => a.st ≤ b.st) := by
  have h := List.sorted_insertionSort spanLe spans
  exact h.imp (fun {a b} hab => by unfold spanLe at hab; omega)

theorem mergeSpansWith_covered (ck : Span → Span → String) (spans : List Span)
    (p : Int) : covered p (mergeSpansWith ck spans) ↔ covered p spans := by
  cases hs : sortSpans spans with
  | nil =>
      have hperm := sortSpans_perm spans
      rw [hs] at hperm
      have : spans = [] := hperm.symm.eq_nil
      subst this
      simp [mergeSpansWith, covered]
  | cons x xs =>
      rw [mergeSpansWith_cons ck spans x xs hs]
      have hsorted := sortSpans_sorted spans
      rw [hs, List.pairwise_cons] at hsorted
      rw [mergeAux_covered ck xs x hsorted.1 hsorted.2 p]
      rw [← hs]
      exact covered_of_perm (sortSpans_perm spans) p

theorem mergeSpansWith_sep (ck : Span → Span → String) (spans : List Span) :
    (mergeSpansWith ck spans).Chain' (fun a b => a.ed < b.st) := by
  cases hs : sortSpans spans with
  | nil =>
      have hperm := sortSpans_perm spans
      rw [hs] at hperm
      have : spans = [] := hperm.symm.eq_nil
      subst this
      simp [mergeSpansWith]
  | cons x xs =>
      rw [mergeSpansWith_cons ck spans x xs hs]
      have hsorted := sortSpans_sorted spans
      rw [hs, List.pairwise_cons] at hsorted
      exact mergeAux_sep ck xs x hsorted.1 hsorted.2

theorem mergeSpansWith_startSorted (ck : Span → Span → String) (spans : List Span) :
    (mergeSpansWith ck spans).Chain' (fun a b => a.st ≤ b.st) := by
  cases hs : sortSpans spans with
  | nil =>
      have hperm := sortSpans_perm spans
      rw [hs] at hperm
      have : spans = [] := hperm.symm.eq_nil
      subst this
      simp [mergeSpansWith]
  | cons x xs =>
      rw [mergeSpansWith_cons ck spans x xs hs]
      have hsorted := sortSpans_sorted spans
      rw [hs, List.pairwise_cons] at hsorted
      exact mergeAux_startSorted ck xs x hsorted.1 hsorted.2

/-- C5: for every list of input spans, the merged result of
`text_sanitizer._merge_spans` covers exactly the union of the input
intervals, is sorted by start, and no two consecutive merged spans
overlap or touch (`start_i > end_{i-1}`). -/
theorem merge_correctness (spans : List Span) :
    (∀ p : Int, covered p (mergeSpansTS spans) ↔ covered p spans) ∧
    (mergeSpansTS spans).Chain' (fun a b => a.st ≤ b.st) ∧
    (mergeSpansTS spans).Chain' (fun a b => a.ed < b.st) :=
  ⟨fun p => mergeSpansWith_covered _ spans p,
   mergeSpansWith_startSorted _ spans,
   mergeSpansWith_sep _ spans⟩

/-- C1 counterexample: in `text_sanitizer._merge_spans`, merging an
accumulated `"ml"` span with an overlapping `"exact"` span keeps the
kind `"ml"`, contradicting the claimed tie-break (which would yield
`"exact"`). -/
theorem merge_tie_break_counterexample :
    mergeSpansTS [⟨0, 5, "x", "ml"⟩, ⟨3, 8, "y", "exact"⟩] = [⟨0, 8, "x", "ml"⟩] ∧
    (mergeSpansTS [⟨0, 5, "x", "ml"⟩, ⟨3, 8, "y", "exact"⟩]).map Span.kind ≠ ["exact"] := by
  constructor
  · decide
  · decide

/-- C1 (amended): for two spans already in `(start, end)` sorted order
that overlap or touch, the `main.py`/`keyboard_hook.py` `_merge_spans`
implements the label tie-break (the merged kind is A's kind unless A's
kind is `"ml"`, in which case it is B's kind), while the
`text_sanitizer.py` `_merge_spans` always keeps A's kind. -/
theorem merge_tie_break (a b : Span) (hle : spanLe a b) (hov : b.st ≤ a.ed) :
    mergeSpansHook [a, b] =
      [⟨a.st, max a.ed b.ed, a.term, if a.kind = "ml" then b.kind else a.kind⟩] ∧
    mergeSpansTS [a, b] = [⟨a.st, max a.ed b.ed, a.term, a.kind⟩] := by
  have hsort : sortSpans [a, b] = [a, b] := by
    simp [sortSpans, List.insertionSort, List.orderedInsert, if_pos hle]
  constructor
  · unfold mergeSpansHook mergeSpansWith
    rw [if_neg (by simp), hsort]
    simp [mergeInto, mergeTwo, if_pos hov]
  · unfold mergeSpansTS mergeSpansWith
    rw [if_neg (by simp), hsort]
    simp [mergeInto, mergeTwo, if_pos hov]

/-- Witness for `merge_tie_break`: merging a model span with an
overlapping exact span yields `"exact"` in the hook merger but `"ml"`
in the sanitizer merger. -/
theorem merge_tie_break_witness :
    mergeSpansHook [⟨0, 5, "x", "ml"⟩, ⟨3, 8, "y", "exact"⟩] = [⟨0, 8, "x", "exact"⟩] ∧
    mergeSpansTS [⟨0, 5, "x", "ml"⟩, ⟨3, 8, "y", "exact"⟩] = [⟨0, 8, "x", "ml"⟩] := by
  have h := merge_tie_break ⟨0, 5, "x", "ml"⟩ ⟨3, 8, "y", "exact"⟩
    (by decide) (by decide)
  simpa using h

/-- ASCII characters of Unicode category `C` (the ones `strip_control_chars`
removes on the ASCII fragment): the C0 controls and DEL. -/
def isPyControl (c : Char) : Bool := c.toNat < 32 || c.toNat == 127

/-- ASCII characters Python's `str` regex class `\s` (and `str.strip`,
`str.isspace`) treats as whitespace: space, `\t\n\v\f\r`, and the
separator controls 28-31. -/
def isPySpace (c : Char) : Bool :=
  c.toNat == 32 || (9 ≤ c.toNat && c.toNat ≤ 13) || (28 ≤ c.toNat && c.toNat ≤ 31)

def isAsciiUpper (c : Char) : Bool := 65 ≤ c.toNat && c.toNat ≤ 90

def isAsciiLowercase (c : Char) : Bool := 97 ≤ c.toNat && c.toNat ≤ 122

def isAsciiDigit (c : Char) : Bool := 48 ≤ c.toNat && c.toNat ≤ 57

def isAsciiAlnum (c : Char) : Bool :=
  isAsciiUpper c || isAsciiLowercase c || isAsciiDigit c

/-- Python `str.lower` on one character (ASCII fragment). -/
def pyLowerChar (c : Char) : Char :=
  if 65 ≤ c.toNat ∧ c.toNat ≤ 90 then Char.ofNat (c.toNat + 32) else c

/-- `strip_control_chars` from `src/preprocess.py`:
keep characters whose Unicode category is not `C`. -/
def stripControlChars (t : List Char) : List Char :=
  t.filter (fun c => !(isPyControl c))

/-- `normalize_unicode` from `src/preprocess.py`: NFKC, which is the
identity on the ASCII fragment modeled here. -/
def normalizeUnicode (t : List Char) : List Char := t

/-- Replacement for one maximal run of `k` copies of `c`: the pattern
`(.)\1{n,}` matches a run of length at least `n+1` (never of newlines,
which `.` does not match) and `re.sub` rewrites it to `n` copies. -/
def emitRun (n : Nat) (c : Char) (k : Nat) : List Char :=
  if c ≠ '\n' ∧ n + 1 ≤ k then List.replicate n c else List.replicate k c

/-- Run-scanning loop of `collapse_repeated_chars`: the state carries the
current character and how many times it has repeated. -/
def collapseGo (n : Nat) : Option (Char × Nat) → List Char → List Char
  | none, [] => []
  | some (c, k), [] => emitRun n c k
  | none, x :: xs => collapseGo n (some (x, 1)) xs
  | some (c, k), x :: xs =>
      if x = c then collapseGo n (some (c, k + 1)) xs
      else emitRun n c k ++ collapseGo n (some (x, 1)) xs

/-- `collapse_repeated_chars(text, n=3)` from `src/preprocess.py`:
`re.sub(r'(.)\1{3,}', r'\1\1\1', text)` — every run of 4 or more equal
characters is collapsed to exactly 3. -/
def collapseRepeatedChars (t : List Char) : List Char :=
  collapseGo 3 none t

/-- `clean_symbols_but_keep_spaces` from `src/preprocess.py`:
`re.sub(r"[^a-zA-Z0-9\s']", " ", text)`. -/
def cleanSymbolsButKeepSpaces (t : List Char) : List Char :=
  t.map (fun c => if isAsciiAlnum c || isPySpace c || c = '\'' then c else ' ')

/-- The `re.sub(r'\s+', ' ', text)` part of `normalize_whitespace`: each
maximal whitespace run becomes a single space.  The flag records whether
the scanner is inside a whitespace run. -/
def sqGo (inWs : Bool) : List Char → List Char
  | [] => []
  | c :: cs =>
      if isPySpace c then
        if inWs then sqGo true cs else ' ' :: sqGo true cs
      else c :: sqGo false cs

/-- Python `str.strip()`: remove leading and trailing whitespace. -/
def pyStrip (t : List Char) : List Char :=
  ((t.dropWhile isPySpace).reverse.dropWhile isPySpace).reverse

/-- `normalize_whitespace` from `src/preprocess.py`:
`re.sub(r'\s+', ' ', text).strip()`. -/
def normalizeWhitespace (t : List Char) : List Char :=
  pyStrip (sqGo false t)

/-- Python `str.lower` (ASCII fragment). -/
def pyLower (t : List Char) : List Char := t.map pyLowerChar

/-- `preprocess` from `src/preprocess.py`: strip control characters, NFKC,
collapse runs of 4+ equal characters to 3, replace symbols by spaces,
collapse whitespace and trim, lowercase — in that order. -/
def preprocess (t : List Char) : List Char :=
  pyLower (normalizeWhitespace (cleanSymbolsButKeepSpaces
    (collapseRepeatedChars (normalizeUnicode (stripControlChars t)))))

/-- C2 counterexample: `preprocess` is not idempotent.  Lowercasing runs
after run-collapsing, so `preprocess "AAaa" = "aaaa"`, which a second
application collapses to `"aaa"`. -/
theorem preprocess_idempotent_counterexample :
    preprocess (preprocess "AAaa".toList) ≠ preprocess "AAaa".toList ∧
    preprocess "AAaa".toList = "aaaa".toList ∧
    preprocess (preprocess "AAaa".toList) = "aaa".toList := by
  refine ⟨?_, ?_, ?_⟩ <;> decide

theorem charToNat_inj {c d : Char} (h : c.toNat = d.toNat) : c = d :=
  Char.ext (UInt32.toNat.inj h)

theorem charToNat_ofNat_small {n : Nat} (h : n < 55296) : (Char.ofNat n).toNat = n := by
  rw [Char.ofNat, dif_pos (Or.inl h)]
  simp [Char.ofNatAux, Char.toNat, UInt32.toNat]

/-- Characters that can occur in a `preprocess` output: lowercase ASCII
letters, digits, space and apostrophe. -/
def isPreChar (c : Char) : Bool :=
  isAsciiLowercase c || isAsciiDigit c || c == ' ' || c == '\''

/-- Characters that survive `clean_symbols_but_keep_spaces` on
control-free input: ASCII alphanumerics, space and apostrophe. -/
def goodChar (c : Char) : Bool :=
  isAsciiAlnum c || c == ' ' || c == '\''

theorem preChar_toNat {c : Char} (h : isPreChar c = true) :
    (97 ≤ c.toNat ∧ c.toNat ≤ 122) ∨ (48 ≤ c.toNat ∧ c.toNat ≤ 57) ∨
      c.toNat = 32 ∨ c.toNat = 39 := by
  simp only [isPreChar, isAsciiLowercase, isAsciiDigit, Bool.or_eq_true,
    Bool.and_eq_true, beq_iff_eq, decide_eq_true_eq] at h
  rcases h with ((h | h) | h) | h
  · exact Or.inl h
  · exact Or.inr (Or.inl h)
  · subst h; right; right; left; rfl
  · subst h; right; right; right; rfl

theorem preChar_of_toNat {c : Char}
    (h : (97 ≤ c.toNat ∧ c.toNat ≤ 122) ∨ (48 ≤ c.toNat ∧ c.toNat ≤ 57) ∨
      c.toNat = 32 ∨ c.toNat = 39) : isPreChar c = true := by
  simp only [isPreChar, isAsciiLowercase, isAsciiDigit, Bool.or_eq_true,
    Bool.and_eq_true, beq_iff_eq, decide_eq_true_eq]
  rcases h with h | h | h | h
  · exact Or.inl (Or.inl (Or.inl h))
  · exact Or.inl (Or.inl (Or.inr h))
  · exact Or.inl (Or.inr (charToNat_inj (by rw [h]; rfl)))
  · exact Or.inr (charToNat_inj (by rw [h]; rfl))

theorem pySpace_iff_toNat {c : Char} :
    isPySpace c = true ↔
      (c.toNat = 32 ∨ (9 ≤ c.toNat ∧ c.toNat ≤ 13) ∨ (28 ≤ c.toNat ∧ c.toNat ≤ 31)) := by
  simp only [isPySpace, Bool.or_eq_true, Bool.and_eq_true, beq_iff_eq,
    decide_eq_true_eq]
  tauto

theorem pySpace_false_iff_toNat {c : Char} :
    isPySpace c = false ↔
      ¬(c.toNat = 32 ∨ (9 ≤ c.toNat ∧ c.toNat ≤ 13) ∨ (28 ≤ c.toNat ∧ c.toNat ≤ 31)) := by
  rw [← pySpace_iff_toNat, Bool.not_eq_true]

theorem preChar_not_control {c : Char} (h : isPreChar c = true) :
    isPyControl c = false := by
  have := preChar_toNat h
  simp only [isPyControl, Bool.or_eq_false_iff, beq_eq_false_iff_ne, ne_eq,
    decide_eq_false_iff_not, not_lt]
  omega

theorem preChar_space_eq {c : Char} (h1 : isPreChar c = true)
    (h2 : isPySpace c = true) : c = ' ' := by
  have ha := preChar_toNat h1
  have hb := pySpace_iff_toNat.mp h2
  exact charToNat_inj (by change c.toNat = 32; omega)

theorem pySpace_nonControl {c : Char} (h1 : isPySpace c = true)
    (h2 : isPyControl c = false) : c = ' ' := by
  have ha := pySpace_iff_toNat.mp h1
  simp only [isPyControl, Bool.or_eq_false_iff, beq_eq_false_iff_ne, ne_eq,
    decide_eq_false_iff_not, not_lt] at h2
  exact charToNat_inj (by change c.toNat = 32; omega)

theorem alnum_toNat {c : Char} (h : isAsciiAlnum c = true) :
    (65 ≤ c.toNat ∧ c.toNat ≤ 90) ∨ (97 ≤ c.toNat ∧ c.toNat ≤ 122) ∨
      (48 ≤ c.toNat ∧ c.toNat ≤ 57) := by
  simp only [isAsciiAlnum, isAsciiUpper, isAsciiLowercase, isAsciiDigit,
    Bool.or_eq_true, Bool.and_eq_true, decide_eq_true_eq] at h
  tauto

theorem preChar_lower_fix {c : Char} (h : isPreChar c = true) :
    pyLowerChar c = c := by
  have := preChar_toNat h
  unfold pyLowerChar
  rw [if_neg (by omega)]

theorem good_lower_preChar {c : Char} (h : goodChar c = true) :
    isPreChar (pyLowerChar c) = true := by
  simp only [goodChar, Bool.or_eq_true, beq_iff_eq] at h
  rcases h with (h | h) | h
  · have := alnum_toNat h
    rcases this with h1 | h1 | h1
    · unfold pyLowerChar
      rw [if_pos (by omega)]
      apply preChar_of_toNat
      rw [charToNat_ofNat_small (by omega)]
      omega
    · unfold pyLowerChar
      rw [if_neg (by omega)]
      exact preChar_of_toNat (by omega)
    · unfold pyLowerChar
      rw [if_neg (by omega)]
      exact preChar_of_toNat (by omega)
  · subst h
    exact preChar_of_toNat (by right; right; left; rfl)
  · subst h
    exact preChar_of_toNat (by right; right; right; rfl)

theorem lower_space {c : Char} : isPySpace (pyLowerChar c) = isPySpace c := by
  unfold pyLowerChar
  by_cases h : 65 ≤ c.toNat ∧ c.toNat ≤ 90
  · rw [if_pos h]
    have h1 : isPySpace (Char.ofNat (c.toNat + 32)) = false := by
      rw [pySpace_false_iff_toNat, charToNat_ofNat_small (by omega)]
      omega
    have h2 : isPySpace c = false := by
      rw [pySpace_false_iff_toNat]
      omega
    rw [h1, h2]
  · rw [if_neg h]

/-- No two adjacent whitespace characters. -/
def wsRel (a b : Char) : Prop := isPySpace a = false ∨ isPySpace b = false

theorem listMapFix {f : Char → Char} :
    ∀ (l : List Char), (∀ c ∈ l, f c = c) → l.map f = l := by
  intro l
  induction l with
  | nil => intro _; rfl
  | cons c cs ih =>
      intro h
      rw [List.map_cons, h c (List.mem_cons_self c cs),
        ih (fun d hd => h d (List.mem_cons_of_mem c hd))]

theorem mem_collapseGo (n : Nat) :
    ∀ (t : List Char) (st : Option (Char × Nat)) (c : Char),
      c ∈ collapseGo n st t →
        (∃ d k, st = some (d, k) ∧ c = d) ∨ c ∈ t := by
  intro t
  induction t with
  | nil =>
      intro st c hc
      match st with
      | none => simp [collapseGo] at hc
      | some (d, k) =>
          left
          refine ⟨d, k, rfl, ?_⟩
          unfold collapseGo emitRun at hc
          split at hc <;> exact List.eq_of_mem_replicate hc
  | cons x xs ih =>
      intro st c hc
      match st with
      | none =>
          rcases ih (some (x, 1)) c hc with ⟨d, k, hdk, hcd⟩ | hmem
          · right
            rw [Option.some_inj, Prod.mk.injEq] at hdk
            rw [hcd, ← hdk.1]
            exact List.mem_cons_self x xs
          · exact Or.inr (List.mem_cons_of_mem x hmem)
      | some (d, k) =>
          rw [collapseGo] at hc
          split at hc
          · rcases ih (some (d, k + 1)) c hc with ⟨e, m, hem, rfl⟩ | hmem
            · rw [Option.some_inj, Prod.mk.injEq] at hem
              exact Or.inl ⟨d, k, rfl, hem.1.symm⟩
            · exact Or.inr (List.mem_cons_of_mem x hmem)
          · rw [List.mem_append] at hc
            rcases hc with hc | hc
            · unfold emitRun at hc
              split at hc <;>
                exact Or.inl ⟨d, k, rfl, List.eq_of_mem_replicate hc⟩
            · rcases ih (some (x, 1)) c hc with ⟨e, m, hem, rfl⟩ | hmem
              · rw [Option.some_inj, Prod.mk.injEq] at hem
                rw [hem.1.symm]
                exact Or.inr (List.mem_cons_self x xs)
              · exact Or.inr (List.mem_cons_of_mem x hmem)

theorem mem_collapse {c : Char} {t : List Char}
    (h : c ∈ collapseRepeatedChars t) : c ∈ t := by
  rcases mem_collapseGo 3 t none c h with ⟨d, k, hdk, _⟩ | hmem
  · exact absurd hdk (by simp)
  · exact hmem

theorem mem_sqGo {c : Char} :
    ∀ (t : List Char) (b : Bool), c ∈ sqGo b t → c = ' ' ∨ c ∈ t := by
  intro t
  induction t with
  | nil => intro b hc; simp [sqGo] at hc
  | cons x xs ih =>
      intro b hc
      rw [sqGo] at hc
      split at hc
      · split at hc
        · rcases ih true hc with h | h
          · exact Or.inl h
          · exact Or.inr (List.mem_cons_of_mem x h)
        · rw [List.mem_cons] at hc
          rcases hc with hc | hc
          · exact Or.inl hc
          · rcases ih true hc with h | h
            · exact Or.inl h
            · exact Or.inr (List.mem_cons_of_mem x h)
      · rw [List.mem_cons] at hc
        rcases hc with hc | hc
        · exact Or.inr (hc ▸ List.mem_cons_self x xs)
        · rcases ih false hc with h | h
          · exact Or.inl h
          · exact Or.inr (List.mem_cons_of_mem x h)

theorem mem_pyStrip {c : Char} {t : List Char} (h : c ∈ pyStrip t) : c ∈ t := by
  unfold pyStrip at h
  rw [List.mem_reverse] at h
  have h1 := (List.dropWhile_suffix isPySpace).subset h
  rw [List.mem_reverse] at h1
  exact (List.dropWhile_suffix isPySpace).subset h1

theorem mem_clean {c : Char} {t : List Char}
    (hctrl : ∀ d ∈ t, isPyControl d = false)
    (h : c ∈ cleanSymbolsButKeepSpaces t) : goodChar c = true := by
  unfold cleanSymbolsButKeepSpaces at h
  rw [List.mem_map] at h
  obtain ⟨d, hd, hc⟩ := h
  by_cases hcond : (isAsciiAlnum d || isPySpace d || d = '\'') = true
  · rw [if_pos hcond] at hc
    subst hc
    simp only [Bool.or_eq_true, decide_eq_true_eq] at hcond
    rcases hcond with (h1 | h1) | h1
    · simp [goodChar, h1]
    · have := pySpace_nonControl h1 (hctrl d hd)
      subst this
      rfl
    · subst h1
      rfl
  · rw [if_neg hcond] at hc
    subst hc
    rfl

theorem preprocess_chars (t : List Char) :
    ∀ c ∈ preprocess t, isPreChar c = true := by
  intro c hc
  unfold preprocess pyLower at hc
  rw [List.mem_map] at hc
  obtain ⟨d, hd, rfl⟩ := hc
  apply good_lower_preChar
  unfold normalizeWhitespace at hd
  have hd1 := mem_pyStrip hd
  rcases mem_sqGo _ false hd1 with h | h
  · subst h; rfl
  · refine mem_clean (fun e he => ?_) h
    have he1 := mem_collapse (t := normalizeUnicode (stripControlChars t)) he
    unfold normalizeUnicode stripControlChars at he1
    rw [List.mem_filter] at he1
    simpa using he1.2

theorem sqGo_true_head :
    ∀ (t : List Char) (d : Char), (sqGo true t).head? = some d → isPySpace d = false := by
  intro t
  induction t with
  | nil => intro d hd; simp [sqGo] at hd
  | cons x xs ih =>
      intro d hd
      rw [sqGo] at hd
      split at hd
      · exact ih d hd
      · rw [List.head?_cons, Option.some_inj] at hd
        subst hd
        rename_i hx
        exact Bool.eq_false_iff.mpr hx

theorem sqGo_chain (t : List Char) : ∀ b : Bool, (sqGo b t).Chain' wsRel := by
  induction t with
  | nil => intro b; simp [sqGo]
  | cons x xs ih =>
      intro b
      rw [sqGo]
      split
      · split
        · exact ih true
        · rw [List.chain'_cons']
          refine ⟨fun d hd => ?_, ih true⟩
          exact Or.inr (sqGo_true_head xs d hd)
      · rw [List.chain'_cons']
        refine ⟨fun d hd => ?_, ih false⟩
        left
        rename_i hx
        exact Bool.eq_false_iff.mpr hx

theorem wsRel_symm {a b : Char} (h : wsRel a b) : wsRel b a := h.symm

theorem chain_reverse_wsRel {l : List Char} (h : l.Chain' wsRel) :
    l.reverse.Chain' wsRel := by
  rw [List.chain'_reverse]
  exact h.imp (fun {a b} hab => wsRel_symm hab)

theorem pyStrip_chain {t : List Char} (h : t.Chain' wsRel) :
    (pyStrip t).Chain' wsRel := by
  unfold pyStrip
  apply chain_reverse_wsRel
  apply List.Chain'.suffix _ (List.dropWhile_suffix isPySpace)
  apply chain_reverse_wsRel
  exact List.Chain'.suffix h (List.dropWhile_suffix isPySpace)

theorem dropWhile_head_false (p : Char → Bool) :
    ∀ (l : List Char) (d : Char), (l.dropWhile p).head? = some d → p d = false := by
  intro l
  induction l with
  | nil => intro d hd; simp at hd
  | cons x xs ih =>
      intro d hd
      rw [List.dropWhile_cons] at hd
      split at hd
      · exact ih d hd
      · rw [List.head?_cons, Option.some_inj] at hd
        subst hd
        rename_i hx
        exact Bool.eq_false_iff.mpr hx

theorem getLast?_suffix {l l' : List Char} (h : l' <:+ l) (hne : l' ≠ []) :
    l'.getLast? = l.getLast? := by
  obtain ⟨pre, rfl⟩ := h
  rw [List.getLast?_append_of_ne_nil pre hne]

theorem pyStrip_last (t : List Char) :
    ∀ d, (pyStrip t).getLast? = some d → isPySpace d = false := by
  intro d hd
  unfold pyStrip at hd
  rw [← List.head?_reverse, List.reverse_reverse] at hd
  exact dropWhile_head_false isPySpace _ d hd

theorem pyStrip_head (t : List Char) :
    ∀ d, (pyStrip t).head? = some d → isPySpace d = false := by
  intro d hd
  unfold pyStrip at hd
  rw [← List.getLast?_reverse, List.reverse_reverse] at hd
  set v := (t.dropWhile isPySpace).reverse with hv
  have hne : v.dropWhile isPySpace ≠ [] := by
    intro hcon
    rw [hcon] at hd
    simp at hd
  rw [getLast?_suffix (List.dropWhile_suffix isPySpace) hne, hv,
    List.getLast?_reverse] at hd
  exact dropWhile_head_false isPySpace _ d hd

theorem preprocess_chain (t : List Char) : (preprocess t).Chain' wsRel := by
  unfold preprocess pyLower
  rw [List.chain'_map]
  refine List.Chain'.imp ?_ (pyStrip_chain (sqGo_chain _ false))
  intro a b hab
  unfold wsRel at *
  rw [lower_space, lower_space]
  exact hab

theorem preprocess_head (t : List Char) :
    ∀ d, (preprocess t).head? = some d → isPySpace d = false := by
  intro d hd
  unfold preprocess pyLower at hd
  rw [List.head?_map] at hd
  unfold normalizeWhitespace at hd
  cases he : (pyStrip (sqGo false (cleanSymbolsButKeepSpaces
      (collapseRepeatedChars (normalizeUnicode (stripControlChars t)))))).head? with
  | none => rw [he] at hd; simp at hd
  | some e =>
      rw [he] at hd
      rw [Option.map_some', Option.some_inj] at hd
      subst hd
      rw [lower_space]
      exact pyStrip_head _ e he

theorem preprocess_last (t : List Char) :
    ∀ d, (preprocess t).getLast? = some d → isPySpace d = false := by
  intro d hd
  unfold preprocess pyLower at hd
  rw [List.getLast?_map] at hd
  unfold normalizeWhitespace at hd
  cases he : (pyStrip (sqGo false (cleanSymbolsButKeepSpaces
      (collapseRepeatedChars (normalizeUnicode (stripControlChars t)))))).getLast? with
  | none => rw [he] at hd; simp at hd
  | some e =>
      rw [he] at hd
      rw [Option.map_some', Option.some_inj] at hd
      subst hd
      rw [lower_space]
      exact pyStrip_last _ e he

theorem stripControl_eq_self {s : List Char}
    (h : ∀ c ∈ s, isPyControl c = false) : stripControlChars s = s := by
  unfold stripControlChars
  refine List.filter_eq_self.mpr (fun c hc => ?_)
  rw [h c hc]
  rfl

theorem alnum_of_toNat {c : Char}
    (h : (65 ≤ c.toNat ∧ c.toNat ≤ 90) ∨ (97 ≤ c.toNat ∧ c.toNat ≤ 122) ∨
      (48 ≤ c.toNat ∧ c.toNat ≤ 57)) : isAsciiAlnum c = true := by
  simp only [isAsciiAlnum, isAsciiUpper, isAsciiLowercase, isAsciiDigit,
    Bool.or_eq_true, Bool.and_eq_true, decide_eq_true_eq]
  tauto

theorem clean_eq_self {s : List Char}
    (h : ∀ c ∈ s, isPreChar c = true) : cleanSymbolsButKeepSpaces s = s := by
  unfold cleanSymbolsButKeepSpaces
  refine listMapFix s (fun c hc => ?_)
  have h0 := preChar_toNat (h c hc)
  have hcond : (isAsciiAlnum c || isPySpace c || decide (c = '\'')) = true := by
    simp only [Bool.or_eq_true, decide_eq_true_eq]
    rcases h0 with h1 | h1 | h1 | h1
    · exact Or.inl (Or.inl (alnum_of_toNat (Or.inr (Or.inl h1))))
    · exact Or.inl (Or.inl (alnum_of_toNat (Or.inr (Or.inr h1))))
    · exact Or.inl (Or.inr (pySpace_iff_toNat.mpr (Or.inl h1)))
    · exact Or.inr (charToNat_inj (by rw [h1]; rfl))
  rw [if_pos hcond]

theorem sqGo_true_eq_false_of_head {cs : List Char}
    (h : ∀ d, cs.head? = some d → isPySpace d = false) :
    sqGo true cs = sqGo false cs := by
  cases cs with
  | nil => rfl
  | cons d ds =>
      rw [sqGo, sqGo, if_neg, if_neg] <;>
        simp [h d rfl]

theorem sqGo_eq_self {s : List Char}
    (hchars : ∀ c ∈ s, isPreChar c = true)
    (hchain : s.Chain' wsRel) : sqGo false s = s := by
  induction s with
  | nil => rfl
  | cons c cs ih =>
      have htailchars : ∀ d ∈ cs, isPreChar d = true :=
        fun d hd => hchars d (List.mem_cons_of_mem c hd)
      have htailchain : cs.Chain' wsRel := hchain.tail
      by_cases hsp : isPySpace c = true
      · have hc : c = ' ' := preChar_space_eq (hchars c (List.mem_cons_self c cs)) hsp
        rw [sqGo, if_pos hsp, if_neg (by simp)]
        rw [List.chain'_cons'] at hchain
        have hhd : ∀ d, cs.head? = some d → isPySpace d = false := by
          intro d hd
          rcases hchain.1 d hd with h1 | h1
          · rw [hsp] at h1; exact absurd h1 (by simp)
          · exact h1
        rw [sqGo_true_eq_false_of_head hhd, ih htailchars htailchain, hc]
      · rw [sqGo, if_neg hsp, ih htailchars htailchain]

theorem dropWhile_eq_self_of_head {p : Char → Bool} {l : List Char}
    (h : ∀ d, l.head? = some d → p d = false) : l.dropWhile p = l := by
  cases l with
  | nil => rfl
  | cons c cs =>
      rw [List.dropWhile_cons, if_neg]
      rw [h c rfl]
      simp

theorem pyStrip_eq_self {s : List Char}
    (hh : ∀ d, s.head? = some d → isPySpace d = false)
    (hl : ∀ d, s.getLast? = some d → isPySpace d = false) : pyStrip s = s := by
  unfold pyStrip
  rw [dropWhile_eq_self_of_head hh]
  rw [dropWhile_eq_self_of_head (fun d hd => hl d (by rwa [List.head?_reverse] at hd))]
  exact List.reverse_reverse s

theorem pyLower_eq_self {s : List Char}
    (h : ∀ c ∈ s, isPreChar c = true) : pyLower s = s :=
  listMapFix s (fun c hc => preChar_lower_fix (h c hc))

/-- C2 (amended): `preprocess` is idempotent exactly on those (ASCII)
inputs whose preprocessed form is already stable under
`collapse_repeated_chars`; in general lowercasing — which runs after
run-collapsing — can create a fresh run of 4+ equal characters that only
the second application collapses. -/
theorem preprocess_idempotent_of_stable (t : List Char)
    (_hascii : ∀ c ∈ t, c.toNat ≤ 127)
    (hcol : collapseRepeatedChars (preprocess t) = preprocess t) :
    preprocess (preprocess t) = preprocess t := by
  have hchars := preprocess_chars t
  have hchain := preprocess_chain t
  have hhead := preprocess_head t
  have hlast := preprocess_last t
  conv_lhs => rw [preprocess]
  rw [show normalizeUnicode (stripControlChars (preprocess t)) = preprocess t from
    stripControl_eq_self (fun c hc => preChar_not_control (hchars c hc))]
  rw [hcol, clean_eq_self hchars]
  unfold normalizeWhitespace
  rw [sqGo_eq_self hchars hchain, pyStrip_eq_self hhead hlast,
    pyLower_eq_self hchars]

/-- Witness for `preprocess_idempotent_of_stable` at the concrete input
`"Hi there!"`. -/
theorem preprocess_idempotent_of_stable_witness :
    preprocess (preprocess "Hi there!".toList) = preprocess "Hi there!".toList :=
  preprocess_idempotent_of_stable "Hi there!".toList (by decide) (by decide)

/-- `Escalator`, `src/escalation.py`: probability thresholds (floats,
embedded as rationals) and the per-key repeat counter `memory`
(`Dict[str, int]`, embedded as an explicit map). -/
structure Escalator where
  th_suggest : ℚ
  th_warn : ℚ
  th_enforce : ℚ
  memory : String → Option Nat

/-- The dataclass defaults `0.50 / 0.70 / 0.90` with empty memory. -/
def defaultEsc : Escalator :=
  { th_suggest := 1/2, th_warn := 7/10, th_enforce := 9/10,
    memory := fun _ => none }

/-- `Escalator.base_action`. -/
def baseAction (e : Escalator) (p : ℚ) : String :=
  if p ≥ e.th_enforce then "enforce"
  else if p ≥ e.th_warn then "warn"
  else if p ≥ e.th_suggest then "suggest"
  else "pass"

/-- The ladder `["suggest", "warn", "enforce"]` from `Escalator.step`. -/
def ladder : List String := ["suggest", "warn", "enforce"]

/-- `Escalator.step`: compute the base action; on `pass` drop the key's
counter and return `pass`; otherwise return
`ladder[max(ladder.index(base), min(c, len(ladder)-1))]` and store `c+1`. -/
def step (e : Escalator) (key : String) (prob : ℚ) : String × Escalator :=
  let base := baseAction e prob
  if base = "pass" then
    ("pass", { e with memory := fun k => if k = key then none else e.memory k })
  else
    let c := (e.memory key).getD 0
    let idx := min c (ladder.length - 1)
    let act := ladder.getD (max (ladder.indexOf base) idx) ""
    (act, { e with memory := fun k => if k = key then some (c + 1) else e.memory k })

/-- Position of an action on the ladder (`suggest < warn < enforce`). -/
def tier (a : String) : Nat := ladder.indexOf a

theorem baseAction_cases (e : Escalator) (p : ℚ) :
    baseAction e p = "pass" ∨ baseAction e p = "suggest" ∨
      baseAction e p = "warn" ∨ baseAction e p = "enforce" := by
  unfold baseAction
  split
  · tauto
  · split
    · tauto
    · split <;> tauto

theorem step_preserves_th (e : Escalator) (key : String) (p : ℚ) :
    (step e key p).2.th_suggest = e.th_suggest ∧
    (step e key p).2.th_warn = e.th_warn ∧
    (step e key p).2.th_enforce = e.th_enforce := by
  by_cases h : baseAction e p = "pass" <;> simp [step, h]

theorem baseAction_step (e : Escalator) (key : String) (p q : ℚ) :
    baseAction (step e key p).2 q = baseAction e q := by
  obtain ⟨h1, h2, h3⟩ := step_preserves_th e key p
  unfold baseAction
  rw [h1, h2, h3]

theorem step_pass (e : Escalator) (key : String) (p : ℚ)
    (hp : baseAction e p = "pass") :
    step e key p =
      ("pass", { e with memory := fun k => if k = key then none else e.memory k }) := by
  unfold step
  rw [if_pos hp]

theorem step_go (e : Escalator) (key : String) (p : ℚ)
    (hp : baseAction e p ≠ "pass") :
    step e key p =
      (ladder.getD
          (max (ladder.indexOf (baseAction e p)) (min ((e.memory key).getD 0) 2)) "",
        { e with memory := fun k =>
            if k = key then some ((e.memory key).getD 0 + 1) else e.memory k }) := by
  unfold step
  rw [if_neg hp]
  rfl

theorem indexOf_base_le_two (e : Escalator) (p : ℚ)
    (h : baseAction e p ≠ "pass") : ladder.indexOf (baseAction e p) ≤ 2 := by
  rcases baseAction_cases e p with h1 | h1 | h1 | h1
  · exact absurd h1 h
  · rw [h1]; decide
  · rw [h1]; decide
  · rw [h1]; decide

theorem tier_ladder_getD {i : Nat} (h : i ≤ 2) : tier (ladder.getD i "") = i := by
  interval_cases i <;> decide

/-- An escalator with (configurable) integer thresholds `1 / 2 / 3` and no
history, used for concrete evaluation. -/
def esc0 : Escalator :=
  { th_suggest := 1, th_warn := 2, th_enforce := 3, memory := fun _ => none }

/-- C3 counterexample: the first call at enforce-level probability returns
`enforce`; the next call for the same key at the suggest threshold
returns `warn` — a strictly lower tier, contradicting the claimed
monotonicity of returned actions. -/
theorem escalator_monotonic_counterexample :
    (step esc0 "k" 3).1 = "enforce" ∧
    (1 : ℚ) ≥ esc0.th_suggest ∧
    (step (step esc0 "k" 3).2 "k" 1).1 = "warn" := by
  refine ⟨?_, ?_, ?_⟩ <;> decide

theorem step_act_of_suggest (f : Escalator) (key : String) (p : ℚ) (c : Nat)
    (hp : baseAction f p = "suggest") (hc : (f.memory key).getD 0 = c) :
    (step f key p).1 = ladder.getD (min c 2) "" ∧
    (step f key p).2.memory key = some (c + 1) := by
  have hne : baseAction f p ≠ "pass" := by rw [hp]; simp
  rw [step_go f key p hne, hp, hc]
  constructor
  · have h0 : ladder.indexOf "suggest" = 0 := by rfl
    rw [h0]
    simp
  · simp

/-- C3 (amended): three consecutive suggest-level step calls with the same
fresh key return `suggest`, then `warn`, then `enforce`; and when call n
is made at suggest-level probability (so its tier is the history tier
`min(c, 2)`), the following call for the same key at any non-pass
probability returns a tier at least as high.  The original claim's
unrestricted monotonicity fails when call n's tier was driven by a high
probability rather than history (`escalator_monotonic_counterexample`). -/
theorem escalator_history (e : Escalator) (key : String) (p : ℚ)
    (hp : baseAction e p = "suggest") (h0 : e.memory key = none) :
    ((step e key p).1 = "suggest" ∧
     (step (step e key p).2 key p).1 = "warn" ∧
     (step (step (step e key p).2 key p).2 key p).1 = "enforce") ∧
    (∀ (f : Escalator) (q : ℚ), baseAction f p = "suggest" →
      baseAction f q ≠ "pass" →
      tier (step (step f key p).2 key q).1 ≥ tier (step f key p).1) := by
  constructor
  · have r1 := step_act_of_suggest e key p 0 hp (by rw [h0]; rfl)
    have hp2 : baseAction (step e key p).2 p = "suggest" := by
      rw [baseAction_step]; exact hp
    have r2 := step_act_of_suggest (step e key p).2 key p 1 hp2 (by rw [r1.2]; rfl)
    have hp3 : baseAction (step (step e key p).2 key p).2 p = "suggest" := by
      rw [baseAction_step, baseAction_step]; exact hp
    have r3 := step_act_of_suggest (step (step e key p).2 key p).2 key p 2 hp3
      (by rw [r2.2]; rfl)
    exact ⟨r1.1, r2.1, r3.1⟩
  · intro f q hfp hfq
    have r1 := step_act_of_suggest f key p ((f.memory key).getD 0) hfp rfl
    have hq' : baseAction (step f key p).2 q ≠ "pass" := by
      rw [baseAction_step]; exact hfq
    have r2 := step_go (step f key p).2 key q hq'
    rw [r1.1, r2, baseAction_step]
    rw [show ((step f key p).2.memory key).getD 0 = (f.memory key).getD 0 + 1 by
      rw [r1.2]; rfl]
    have hle : ladder.indexOf (baseAction f q) ≤ 2 := indexOf_base_le_two f q hfq
    rw [tier_ladder_getD (by omega), tier_ladder_getD (by omega)]
    omega

/-- Witness for `escalator_history`: three suggest-level calls walk the
ladder, and a following warn-level call does not drop below the history
tier. -/
theorem escalator_history_witness :
    (step esc0 "kk" 1).1 = "suggest" ∧
    (step (step esc0 "kk" 1).2 "kk" 1).1 = "warn" ∧
    (step (step (step esc0 "kk" 1).2 "kk" 1).2 "kk" 1).1 = "enforce" ∧
    tier (step (step esc0 "kk" 1).2 "kk" 2).1 ≥ tier (step esc0 "kk" 1).1 := by
  have h := escalator_history esc0 "kk" 1 (by decide) rfl
  exact ⟨h.1.1, h.1.2.1, h.1.2.2, h.2 esc0 2 (by decide) (by decide)⟩

/-- C8: a step call whose probability yields base action `pass` removes
the key's counter and returns `pass`, leaves every other key's counter
unchanged, and a subsequent non-pass call for the key starts at ladder
index 0 again: its action is exactly the base action of its probability. -/
theorem escalator_reset_on_pass (e : Escalator) (key : String) (p q : ℚ)
    (hp : baseAction e p = "pass") (hq : baseAction e q ≠ "pass") :
    (step e key p).1 = "pass" ∧
    (step e key p).2.memory key = none ∧
    (∀ k, k ≠ key → (step e key p).2.memory k = e.memory k) ∧
    (step (step e key p).2 key q).1 = baseAction e q := by
  have h1 := step_pass e key p hp
  refine ⟨by rw [h1], by rw [h1]; simp, fun k hk => by rw [h1]; simp [hk], ?_⟩
  have hq' : baseAction (step e key p).2 q ≠ "pass" := by
    rw [baseAction_step]; exact hq
  rw [step_go _ key q hq', baseAction_step]
  have hmem : ((step e key p).2.memory key).getD 0 = 0 := by rw [h1]; simp
  rw [hmem]
  rcases baseAction_cases e q with h2 | h2 | h2 | h2
  · exact absurd h2 hq
  · rw [h2]; rfl
  · rw [h2]; rfl
  · rw [h2]; rfl

/-- An escalator with accumulated history for two keys, used to witness
the reset. -/
def escReset : Escalator :=
  { th_suggest := 1, th_warn := 2, th_enforce := 3,
    memory := fun k => if k = "k" then some 5 else if k = "other" then some 2 else none }

/-- Witness for `escalator_reset_on_pass`: a pass wipes `"k"`'s counter of
5, keeps `"other"`'s counter, and the next warn-level call for `"k"`
returns plain `warn`. -/
theorem escalator_reset_on_pass_witness :
    (step escReset "k" 0).1 = "pass" ∧
    (step escReset "k" 0).2.memory "k" = none ∧
    (step escReset "k" 0).2.memory "other" = some 2 ∧
    (step (step escReset "k" 0).2 "k" 2).1 = "warn" := by
  have h := escalator_reset_on_pass escReset "k" 0 2 (by decide) (by decide)
  refine ⟨h.1, h.2.1, ?_, ?_⟩
  · rw [h.2.2.1 "other" (by decide)]; rfl
  · rw [h.2.2.2]; decide

/-- Resolution of a Python slice endpoint `i` against length `n`:
negative indices count from the end, out-of-range clamps. -/
def pySliceIdx (n : Nat) (i : Int) : Nat :=
  if i < 0 then (max 0 (i + n)).toNat else min i.toNat n

/-- Python `raw[a:b]` on a list of characters. -/
def pySlice (l : List Char) (a b : Int) : List Char :=
  (l.take (pySliceIdx l.length b)).drop (pySliceIdx l.length a)

/-- The `out, prev` loop of `_erase_by_spans`: emit `raw[prev:s]` for each
span `(s, e, ...)`, then the tail `raw[prev:]`. -/
def eraseLoop (raw : List Char) : Int → List Span → List Char
  | prev, [] => raw.drop (pySliceIdx raw.length prev)
  | prev, s :: rest => pySlice raw prev s.st ++ eraseLoop raw s.ed rest

/-- `_erase_by_spans` from `src/main.py` / `src/keyboard_hook.py`. -/
def eraseBySpans (raw : List Char) (spans : List Span) : List Char :=
  if mergeSpansHook spans = [] then raw
  else eraseLoop raw 0 (mergeSpansHook spans)

/-- Masking of one span: clamp `st` into `[0, len]`, `ed` into `[st, len]`,
и overwrite the covered positions (`for i in range(st, ed): chars[i] = ch`). -/
def maskOne (chars : List Char) (s : Span) (ch : Char) : List Char :=
  let n : Int := chars.length
  let st := max 0 (min s.st n)
  let ed := max st (min s.ed n)
  chars.mapIdx (fun i c => if st ≤ (i : Int) ∧ (i : Int) < ed then ch else c)

/-- `_mask_by_spans` from `src/main.py` / `src/keyboard_hook.py`: merge,
then mask each span over the character list. -/
def maskBySpans (raw : List Char) (spans : List Span) (ch : Char) : List Char :=
  if mergeSpansHook spans = [] then raw
  else (mergeSpansHook spans).foldl (fun cs s => maskOne cs s ch) raw

/-- `TextSanitizer._mask` from `src/text_sanitizer.py`: same per-span
masking, but without merging first. -/
def maskTS (raw : List Char) (spans : List Span) (ch : Char) : List Char :=
  if spans = [] then raw
  else spans.foldl (fun cs s => maskOne cs s ch) raw

/-- The policy constant `MODE = "erase"` of `src/main.py` and
`src/keyboard_hook.py`. -/
def MODE : String := "erase"

/-- `_apply_policy`: mask when `MODE == "mask"`, otherwise erase. -/
def applyPolicy (line : List Char) (spans : List Span) : List Char :=
  if MODE = "mask" then maskBySpans line spans '*' else eraseBySpans line spans

/-- The decision logic of `_process_line` (`src/main.py` /
`src/keyboard_hook.py`) after `analyze` produced `action`, `spans` and
`ml_prob`: pass through, apply the policy, and apply the two safety
downgrades; returns the reported action and the output line. -/
def processLine (action : String) (spans : List Span) (ml_prob : ℚ)
    (line : List Char) : String × List Char :=
  if action = "pass" then ("pass", line)
  else
    let out := if spans = [] then line else applyPolicy line spans
    if action = "enforce" ∧ (spans = [] ∨ pyStrip out = pyStrip line) then
      ("warn", line)
    else if action = "enforce" ∧ (spans ≠ [] ∧ ∀ s ∈ spans, s.kind = "ml") ∧
        ml_prob < 985/1000 then
      ("warn", line)
    else (action, out)

/-- C4: with action `enforce`, an empty span list, or a policy output that
equals the input after stripping surrounding whitespace, or spans that are
all `"ml"`-kind with probability below 0.985, downgrade the reported
action to `warn` and return the original line unmodified. -/
theorem safety_downgrade (spans : List Span) (p : ℚ) (line : List Char)
    (h : spans = [] ∨ pyStrip (applyPolicy line spans) = pyStrip line ∨
      ((spans ≠ [] ∧ ∀ s ∈ spans, s.kind = "ml") ∧ p < 985/1000)) :
    processLine "enforce" spans p line = ("warn", line) := by
  unfold processLine
  rw [if_neg (by simp)]
  by_cases h1 : spans = []
  · rw [if_pos ⟨rfl, Or.inl h1⟩]
  · simp only [if_neg h1]
    by_cases h2 : pyStrip (applyPolicy line spans) = pyStrip line
    · rw [if_pos ⟨by trivial, Or.inr h2⟩]
    · have h3 : (spans ≠ [] ∧ ∀ s ∈ spans, s.kind = "ml") ∧ p < 985/1000 := by
        tauto
      rw [if_neg (by intro hcon; rcases hcon.2 with hc | hc; exact h1 hc; exact h2 hc)]
      rw [if_pos ⟨by trivial, h3⟩]

/-- Witness for `safety_downgrade`: the spec's own scenario — `enforce`
with empty spans is reported as `warn` with the line unchanged. -/
theorem safety_downgrade_witness :
    processLine "enforce" [] 0 "abc".toList = ("warn", "abc".toList) :=
  safety_downgrade [] 0 "abc".toList (Or.inl rfl)

theorem maskOne_length (chars : List Char) (s : Span) (ch : Char) :
    (maskOne chars s ch).length = chars.length := by
  unfold maskOne
  exact List.length_mapIdx

theorem foldMask_length (ch : Char) :
    ∀ (spans : List Span) (chars : List Char),
      (spans.foldl (fun cs s => maskOne cs s ch) chars).length = chars.length := by
  intro spans
  induction spans with
  | nil => intro chars; rfl
  | cons s rest ih =>
      intro chars
      rw [List.foldl_cons, ih (maskOne chars s ch), maskOne_length]

theorem clamp_cond_iff {n : Nat} {st ed : Int} {i : Nat} (hi : i < n) :
    (max 0 (min st (n : Int)) ≤ (i : Int) ∧
      (i : Int) < max (max 0 (min st (n : Int))) (min ed (n : Int))) ↔
    (st ≤ (i : Int) ∧ (i : Int) < ed) := by
  omega

theorem maskOne_getElem? (chars : List Char) (s : Span) (ch : Char) (i : Nat)
    (hi : i < chars.length) :
    (maskOne chars s ch)[i]? =
      if s.st ≤ (i : Int) ∧ (i : Int) < s.ed then some ch else chars[i]? := by
  unfold maskOne
  rw [List.getElem?_mapIdx]
  rw [List.getElem?_eq_getElem hi]
  rw [Option.map_some']
  by_cases h : s.st ≤ (i : Int) ∧ (i : Int) < s.ed
  · rw [if_pos h, if_pos ((clamp_cond_iff hi).mpr h)]
  · rw [if_neg h, if_neg (fun hc => h ((clamp_cond_iff hi).mp hc))]

theorem foldMask_getElem? (ch : Char) :
    ∀ (spans : List Span) (chars : List Char) (i : Nat), i < chars.length →
      (spans.foldl (fun cs s => maskOne cs s ch) chars)[i]? =
        if covered (i : Int) spans then some ch else chars[i]? := by
  intro spans
  induction spans with
  | nil =>
      intro chars i hi
      rw [if_neg (covered_nil _)]
      rfl
  | cons s rest ih =>
      intro chars i hi
      rw [List.foldl_cons]
      rw [ih (maskOne chars s ch) i (by rw [maskOne_length]; exact hi)]
      rw [maskOne_getElem? chars s ch i hi]
      by_cases hr : covered (i : Int) rest
      · rw [if_pos hr, if_pos ((covered_cons _ s rest).mpr (Or.inr hr))]
      · rw [if_neg hr]
        by_cases hs : s.st ≤ (i : Int) ∧ (i : Int) < s.ed
        · rw [if_pos hs, if_pos ((covered_cons _ s rest).mpr (Or.inl hs))]
        · rw [if_neg hs, if_neg (fun hc => by
            rcases (covered_cons _ s rest).mp hc with h | h
            · exact hs h
            · exact hr h)]

/-- C10: both maskers are length-preserving; every position covered by a
span (clamped into the text) is the mask character, every other position
is the original character, and an empty span list returns the input
unchanged.  Stated for `TextSanitizer._mask` and for the hook-side
`_mask_by_spans` (which merges first; merging preserves coverage). -/
theorem mask_frame (raw : List Char) (spans : List Span) (ch : Char) :
    (maskTS raw spans ch).length = raw.length ∧
    (maskBySpans raw spans ch).length = raw.length ∧
    maskTS raw [] ch = raw ∧
    maskBySpans raw [] ch = raw ∧
    ∀ i : Nat, i < raw.length →
      ((maskTS raw spans ch)[i]? = if covered (i : Int) spans then some ch else raw[i]?) ∧
      ((maskBySpans raw spans ch)[i]? = if covered (i : Int) spans then some ch else raw[i]?) := by
  have hcov := mergeSpansWith_covered (fun p s => if p.kind = "ml" then s.kind else p.kind) spans
  refine ⟨?_, ?_, rfl, rfl, ?_⟩
  · unfold maskTS
    split
    · rfl
    · exact foldMask_length ch spans raw
  · unfold maskBySpans mergeSpansHook
    split
    · rfl
    · exact foldMask_length ch _ raw
  · intro i hi
    constructor
    · unfold maskTS
      split
      · rename_i hsp
        subst hsp
        rw [if_neg (covered_nil _)]
      · exact foldMask_getElem? ch spans raw i hi
    · unfold maskBySpans mergeSpansHook
      split
      · rename_i hsp
        rw [if_neg (fun hc => by
          have hcv := (hcov (i : Int)).mpr hc
          rw [hsp] at hcv
          exact covered_nil _ hcv)]
      · rename_i hsp
        rw [foldMask_getElem? ch _ raw i hi]
        by_cases hc : covered (i : Int) spans
        · rw [if_pos hc, if_pos ((hcov (i : Int)).mpr hc)]
        · rw [if_neg hc, if_neg (fun hcon => hc ((hcov (i : Int)).mp hcon))]

/-- Witness for `mask_frame`: masking `"abcd"` with the span `[1, 3)`
yields `"a**d"` position by position. -/
theorem mask_frame_witness :
    ((maskTS "abcd".toList [⟨1, 3, "bc", "exact"⟩] '*')[2]? = some '*') ∧
    ((maskTS "abcd".toList [⟨1, 3, "bc", "exact"⟩] '*')[0]? = some 'a') ∧
    (maskTS "abcd".toList [⟨1, 3, "bc", "exact"⟩] '*').length = 4 := by
  have h := mask_frame "abcd".toList [⟨1, 3, "bc", "exact"⟩] '*'
  have h2 := (h.2.2.2.2 2 (by decide)).1
  have h0 := (h.2.2.2.2 0 (by decide)).1
  refine ⟨?_, ?_, ?_⟩
  · rw [h2, if_pos (by decide)]
  · rw [h0, if_neg (by decide)]
    rfl
  · rw [h.1]
    rfl

/-- Scanner for `re.finditer(r"\S+", raw)`: maximal runs of
non-whitespace characters with their start offsets.  The state carries
the current token's start and its characters in reverse. -/
def tokGo : Nat → Option (Nat × List Char) → List Char → List (Nat × List Char)
  | _, none, [] => []
  | _, some (s, acc), [] => [(s, acc.reverse)]
  | i, none, c :: cs =>
      if isPySpace c then tokGo (i + 1) none cs
      else tokGo (i + 1) (some (i, [c])) cs
  | i, some (s, acc), c :: cs =>
      if isPySpace c then (s, acc.reverse) :: tokGo (i + 1) none cs
      else tokGo (i + 1) (some (s, c :: acc)) cs

/-- `list(re.finditer(r"\S+", raw))` as (start, token) pairs; a token's
end offset is `start + length`. -/
def findTokens (t : List Char) : List (Nat × List Char) :=
  tokGo 0 none t

def isLowerAlnumChar (c : Char) : Bool := isAsciiLowercase c || isAsciiDigit c

/-- The `_normalize_token` fallback in `src/text_sanitizer.py`
(`fuzzy_match` exports none of the imported helper names, so the
`except`-branch definitions are the live ones):
`re.sub(r"[^a-z0-9]", "", x.lower())`. -/
def normalizeWord (tok : List Char) : List Char :=
  (tok.map pyLowerChar).filter isLowerAlnumChar

/-- The `_ed1` fallback in `src/text_sanitizer.py`: equality, or one
deletion, one insertion, or at most one substitution. -/
def ed1 (a b : List Char) : Bool :=
  if a = b then true
  else if (a.length : Int) - b.length > 1 ∨ (b.length : Int) - a.length > 1 then false
  else if a.length + 1 = b.length then
    (List.range b.length).any (fun i => a = b.eraseIdx i)
  else if b.length + 1 = a.length then
    (List.range a.length).any (fun i => b = a.eraseIdx i)
  else if a.length = b.length then
    decide (((a.zip b).countP (fun p => p.1 != p.2)) ≤ 1)
  else false

/-- The `BASE_TOXIC` fallback set in `src/text_sanitizer.py` (a Python
set; iteration order only affects which lexicon word breaks the inner
loop, never the produced span). -/
def BASE_TOXIC : List (List Char) :=
  ["bitch".toList, "ass".toList, "fuck".toList, "idiot".toList,
   "bastard".toList, "slur".toList, "kill".toList, "moron".toList,
   "stupid".toList, "dumb".toList, "dickhead".toList, "scumbag".toList,
   "bullshit".toList, "pussy".toList, "boobs".toList, "cock".toList,
   "penis".toList, "vagina".toList, "fucker".toList, "sex".toList,
   "porn".toList]

/-- Python `p in t` for strings: contiguous-substring test. -/
def startsWithList : List Char → List Char → Bool
  | [], _ => true
  | _ :: _, [] => false
  | p :: ps, t :: ts => p == t && startsWithList ps ts

def isSubstringList : List Char → List Char → Bool
  | p, [] => p.isEmpty
  | p, c :: cs => startsWithList p (c :: cs) || isSubstringList p cs

/-- The per-token lexicon test of `_substring_fallback`:
`tox in norm or norm in tox or _ed1(norm, tox)` over `BASE_TOXIC`. -/
def toxTokenMatch (norm : List Char) : Bool :=
  BASE_TOXIC.any (fun tox =>
    isSubstringList tox norm || isSubstringList norm tox || ed1 norm tox)

/-- `TextSanitizer._substring_fallback` from `src/text_sanitizer.py`:
every whitespace token of the original text whose normalized form has a
substring or edit-distance-1 match against the base lexicon becomes a
span tagged `"ml-substring"`; the collected spans are merged. -/
def substringFallback (raw : List Char) : List Span :=
  mergeSpansTS ((findTokens raw).filterMap (fun st =>
    let norm := normalizeWord st.2
    if norm = [] then none
    else if toxTokenMatch norm then
      some ⟨(st.1 : Int), (st.1 : Int) + st.2.length, String.mk st.2, "ml-substring"⟩
    else none))

/-- `_STOPWORDS` from `src/text_sanitizer.py`. -/
def STOPWORDS : List (List Char) :=
  ["i".toList, "you".toList, "u".toList, "ur".toList, "he".toList,
   "she".toList, "it".toList, "we".toList, "they".toList, "me".toList,
   "him".toList, "her".toList, "them".toList, "us".toList, "am".toList,
   "is".toList, "are".toList, "was".toList, "were".toList, "be".toList,
   "been".toList, "being".toList, "a".toList, "an".toList, "the".toList,
   "to".toList, "for".toList, "of".toList, "in".toList, "on".toList,
   "at".toList, "by".toList, "and".toList, "or".toList, "but".toList,
   "if".toList, "then".toList, "else".toList, "with".toList, "about".toList]

/-- The score of one token in `_heuristic_token_pick`: +1 when the
normalized form has length at least 4, +2 when the raw token contains a
character outside `[A-Za-z0-9]`. -/
def tokenScore (tok : List Char) : Int :=
  (if 4 ≤ (normalizeWord tok).length then 1 else 0) +
  (if tok.any (fun c => !(isAsciiAlnum c)) then 2 else 0)

/-- `TextSanitizer._heuristic_token_pick` from `src/text_sanitizer.py`:
pick the first best-scoring non-stopword token; emit it as a single
`"ml-heuristic"` span when its score is positive. -/
def heuristicTokenPick (raw : List Char) : List Span :=
  let best := (findTokens raw).foldl (fun acc st =>
    if STOPWORDS.contains (normalizeWord st.2) then acc
    else if tokenScore st.2 > acc.2 then (some st, tokenScore st.2) else acc)
    ((none : Option (Nat × List Char)), (-1 : Int))
  match best with
  | (some st, sc) =>
      if sc > 0 then
        [⟨(st.1 : Int), (st.1 : Int) + st.2.length, String.mk st.2, "ml-heuristic"⟩]
      else []
  | (none, _) => []

/-- The ML fallback chain of `TextSanitizer.analyze` (run when the regex
matchers found nothing and the probability reached the enforce
threshold): use the localizer result; if empty, the substring fallback;
if still empty and the probability is at least 0.98, the heuristic
token pick.  The localizer re-queries the external classifier, so its
result is passed in as data. -/
def mlFallback (localized : List Span) (raw : List Char) (prob : ℚ) : List Span :=
  let spans := if localized = [] then substringFallback raw else localized
  if spans = [] ∧ prob ≥ 98/100 then heuristicTokenPick raw else spans

theorem mergeAux_kinds (ck : Span → Span → String) (k : String)
    (hck : ∀ p s, p.kind = k → s.kind = k → ck p s = k) :
    ∀ (rest : List Span) (cur : Span), cur.kind = k →
      (∀ s ∈ rest, s.kind = k) → ∀ x ∈ mergeAux ck cur rest, x.kind = k := by
  intro rest
  induction rest with
  | nil =>
      intro cur hcur _ x hx
      rw [mergeAux, List.mem_singleton] at hx
      subst hx
      exact hcur
  | cons s rest ih =>
      intro cur hcur hall x hx
      rw [mergeAux] at hx
      split at hx
      · refine ih (mergeTwo ck cur s) ?_ (fun d hd => hall d (List.mem_cons_of_mem s hd)) x hx
        exact hck cur s hcur (hall s (List.mem_cons_self s rest))
      · rw [List.mem_cons] at hx
        rcases hx with hx | hx
        · subst hx; exact hcur
        · exact ih s (hall s (List.mem_cons_self s rest))
            (fun d hd => hall d (List.mem_cons_of_mem s hd)) x hx

theorem mergeSpansWith_kinds (ck : Span → Span → String) (k : String)
    (hck : ∀ p s, p.kind = k → s.kind = k → ck p s = k)
    (spans : List Span) (h : ∀ s ∈ spans, s.kind = k) :
    ∀ x ∈ mergeSpansWith ck spans, x.kind = k := by
  intro x hx
  cases hs : sortSpans spans with
  | nil =>
      rw [mergeSpansWith] at hx
      split at hx
      · simp at hx
      · rw [hs] at hx
        simp at hx
  | cons y ys =>
      rw [mergeSpansWith_cons ck spans y ys hs] at hx
      have hmem : ∀ s ∈ sortSpans spans, s.kind = k :=
        fun s hsm => h s ((sortSpans_perm spans).mem_iff.mp hsm)
      rw [hs] at hmem
      exact mergeAux_kinds ck k hck ys y (hmem y (List.mem_cons_self y ys))
        (fun d hd => hmem d (List.mem_cons_of_mem y hd)) x hx

/-- C7 counterexample: on `"bitch idiot"` the substring fallback returns
one span per matching token — two spans, not "the first such match as a
single span". -/
theorem substring_fallback_counterexample :
    substringFallback "bitch idiot".toList =
      [⟨0, 5, "bitch", "ml-substring"⟩, ⟨6, 11, "idiot", "ml-substring"⟩] ∧
    (substringFallback "bitch idiot".toList).length ≠ 1 := by
  constructor
  · decide
  · decide

/-- C7 (amended): when the windowed masking search yields no spans, the
fallback scans every whitespace token of the original text for a
substring or edit-distance-1 match against the base lexicon and returns
ALL matching tokens as merged spans tagged `"ml-substring"` (not only
the first as a single span); every character of every matching token is
covered by the returned spans. -/
theorem substring_fallback_spans (raw : List Char) (prob : ℚ)
    (localized : List Span) (hloc : localized = [])
    (hsub : substringFallback raw ≠ []) :
    mlFallback localized raw prob = substringFallback raw ∧
    (∀ s ∈ substringFallback raw, s.kind = "ml-substring") ∧
    (∀ st ∈ findTokens raw, normalizeWord st.2 ≠ [] →
      toxTokenMatch (normalizeWord st.2) = true →
      ∀ j : Int, (st.1 : Int) ≤ j → j < (st.1 : Int) + st.2.length →
        covered j (substringFallback raw)) := by
  subst hloc
  refine ⟨?_, ?_, ?_⟩
  · unfold mlFallback
    rw [if_pos rfl, if_neg (fun hc => hsub hc.1)]
  · intro s hs
    unfold substringFallback mergeSpansTS at hs
    refine mergeSpansWith_kinds _ "ml-substring" (fun p _ hp _ => hp) _ ?_ s hs
    intro x hx
    rw [List.mem_filterMap] at hx
    obtain ⟨a, _, hfa⟩ := hx
    by_cases h1 : normalizeWord a.2 = []
    · rw [if_pos h1] at hfa; exact absurd hfa (by simp)
    · rw [if_neg h1] at hfa
      by_cases h2 : toxTokenMatch (normalizeWord a.2) = true
      · rw [if_pos h2, Option.some_inj] at hfa
        rw [← hfa]
      · rw [if_neg h2] at hfa; exact absurd hfa (by simp)
  · intro st hst hnorm hmatch j hj1 hj2
    unfold substringFallback mergeSpansTS
    rw [mergeSpansWith_covered]
    refine ⟨⟨(st.1 : Int), (st.1 : Int) + st.2.length,
      String.mk st.2, "ml-substring"⟩, ?_, hj1, hj2⟩
    rw [List.mem_filterMap]
    exact ⟨st, hst, by rw [if_neg hnorm, if_pos hmatch]⟩

/-- Witness for `substring_fallback_spans`: on `"you idiot"` the fallback
feeds the analysis exactly its own single matching token. -/
theorem substring_fallback_spans_witness :
    mlFallback [] "you idiot".toList 0 = substringFallback "you idiot".toList ∧
    substringFallback "you idiot".toList = [⟨4, 9, "idiot", "ml-substring"⟩] := by
  have h := substring_fallback_spans "you idiot".toList 0 [] rfl (by decide)
  exact ⟨h.1, by decide⟩

/-- `LEET_MAP` from `src/fuzzy_match.py`, as literal alternative strings
(`re.escape` only quotes regex metacharacters, so each alternative
denotes itself).  `letter_group` lowercases its argument and falls back
to the literal letter for unmapped characters. -/
def leetMap (c : Char) : List (List Char) :=
  if c = 'a' then [['a'], ['@'], ['4']]
  else if c = 'b' then [['b'], ['8']]
  else if c = 'e' then [['e'], ['3']]
  else if c = 'i' then [['i'], ['1'], ['l'], ['!']]
  else if c = 'l' then [['l'], ['1'], ['i']]
  else if c = 'o' then [['o'], ['0']]
  else if c = 's' then [['s'], ['$'], ['5']]
  else if c = 't' then [['t'], ['7']]
  else if c = 'g' then [['g'], ['9']]
  else if c = 'c' then [['c'], ['(']]
  else if c = 'k' then [['k'], ['|', '<']]
  else [[c]]

/-- Consume one literal alternative at the head of the text,
case-insensitively (the patterns are compiled with `re.IGNORECASE` and
all alternatives are lowercase); returns the remainder on success. -/
def stripVariant : List Char → List Char → Option (List Char)
  | [], t => some t
  | _ :: _, [] => none
  | v :: vs, c :: cs => if pyLowerChar c = v then stripVariant vs cs else none

/-- The character class `[\W_]` of the separator:
`\W` is any non-word character and the class re-adds `_`, so together:
any character that is not an ASCII alphanumeric. -/
def isSepChar (c : Char) : Bool := !(isAsciiAlnum c)

/-- All remainders reachable by the separator `(?:[\W_]*)`: drop any
number of leading separator characters. -/
def sepRemainders : List Char → List (List Char)
  | [] => [[]]
  | c :: cs => (c :: cs) :: (if isSepChar c then sepRemainders cs else [])

/-- Modelled from the spec: remainders reachable by a separator run of at
most `n` characters (the spec's words say "a run of at most 2"). -/
def sepRemaindersUpTo : Nat → List Char → List (List Char)
  | _, [] => [[]]
  | 0, t => [t]
  | n + 1, c :: cs =>
      (c :: cs) :: (if isSepChar c then sepRemaindersUpTo n cs else [])

/-- Denotation of `make_fuzzy_regex` (`src/fuzzy_match.py`) on a whole
region: the letter-groups of the word, joined by unbounded separator
runs, must cover the region exactly. -/
def matchGroups : List Char → List Char → Bool
  | [], t => t.isEmpty
  | [c], t => (leetMap c).any (fun v => stripVariant v t == some [])
  | c :: c2 :: rest, t =>
      (leetMap c).any (fun v =>
        match stripVariant v t with
        | none => false
        | some t' => (sepRemainders t').any (fun t'' => matchGroups (c2 :: rest) t''))

/-- Modelled from the spec: the same matcher with separator runs limited
to at most 2 characters, for comparison with the code's unbounded runs. -/
def matchGroupsAtMost2 : List Char → List Char → Bool
  | [], t => t.isEmpty
  | [c], t => (leetMap c).any (fun v => stripVariant v t == some [])
  | c :: c2 :: rest, t =>
      (leetMap c).any (fun v =>
        match stripVariant v t with
        | none => false
        | some t' =>
            (sepRemaindersUpTo 2 t').any (fun t'' => matchGroupsAtMost2 (c2 :: rest) t''))

/-- Whether the fuzzy pattern built for `word` matches `region` exactly. -/
def fuzzyMatchRegion (word region : List Char) : Bool :=
  matchGroups (word.map pyLowerChar) region

/-- Modelled from the spec: the at-most-2-separators variant. -/
def fuzzyMatchRegionAtMost2 (word region : List Char) : Bool :=
  matchGroupsAtMost2 (word.map pyLowerChar) region

theorem sepRemaindersUpTo_subset :
    ∀ (t : List Char) (n : Nat) (x : List Char),
      x ∈ sepRemaindersUpTo n t → x ∈ sepRemainders t := by
  intro t
  induction t with
  | nil =>
      intro n x hx
      cases n <;> simpa [sepRemaindersUpTo, sepRemainders] using hx
  | cons c cs ih =>
      intro n x hx
      cases n with
      | zero =>
          rw [show sepRemaindersUpTo 0 (c :: cs) = [c :: cs] from rfl,
            List.mem_singleton] at hx
          subst hx
          rw [sepRemainders]
          exact List.mem_cons_self _ _
      | succ m =>
          rw [sepRemaindersUpTo, List.mem_cons] at hx
          rw [sepRemainders, List.mem_cons]
          rcases hx with hx | hx
          · exact Or.inl hx
          · right
            split at hx
            · rename_i hsep
              rw [if_pos hsep]
              exact ih m x hx
            · simp at hx

theorem matchGroups_mono :
    ∀ (w t : List Char), matchGroupsAtMost2 w t = true → matchGroups w t = true
  | [], _, h => h
  | [_], _, h => h
  | c :: c2 :: rest, t, h => by
      rw [matchGroupsAtMost2, List.any_eq_true] at h
      obtain ⟨v, hv, hmatch⟩ := h
      rw [matchGroups, List.any_eq_true]
      refine ⟨v, hv, ?_⟩
      cases hsv : stripVariant v t with
      | none => rw [hsv] at hmatch; simp at hmatch
      | some t' =>
          rw [hsv] at hmatch
          rw [List.any_eq_true] at hmatch
          obtain ⟨t'', ht'', hrec⟩ := hmatch
          rw [List.any_eq_true]
          exact ⟨t'', sepRemaindersUpTo_subset t' 2 t'' ht'',
            matchGroups_mono (c2 :: rest) t'' hrec⟩

/-- C6 counterexample: the separator in `make_fuzzy_regex` is
`(?:[\W_]*)` — an unbounded run.  `"b!!!i!t!c!h"`, whose only decomposition
uses a 3-character separator run, matches the pattern for `"bitch"`, but
does not match the spec's at-most-2 variant. -/
theorem fuzzy_sep_counterexample :
    fuzzyMatchRegion "bitch".toList "b!!!i!t!c!h".toList = true ∧
    fuzzyMatchRegionAtMost2 "bitch".toList "b!!!i!t!c!h".toList = false := by
  constructor
  · decide
  · decide

/-- C6 (amended): consecutive letter-groups are joined by a run of ANY
number (zero or more) of non-alphanumeric separator characters — every
region the spec's at-most-2 variant accepts is accepted, and so are the
obfuscations `"b!i!t!c!h"` and `"b i t c h"`; a region with an
alphanumeric intruder (`"bxitch"`) is not. -/
theorem make_fuzzy_regex_separators (w region : List Char)
    (h : fuzzyMatchRegionAtMost2 w region = true) :
    fuzzyMatchRegion w region = true ∧
    fuzzyMatchRegion "bitch".toList "b!i!t!c!h".toList = true ∧
    fuzzyMatchRegion "bitch".toList "b i t c h".toList = true ∧
    fuzzyMatchRegion "bitch".toList "bitch".toList = true ∧
    fuzzyMatchRegion "bitch".toList "bxitch".toList = false := by
  refine ⟨matchGroups_mono _ region h, ?_, ?_, ?_, ?_⟩ <;> decide

/-- Witness for `make_fuzzy_regex_separators` at the 2-separator
obfuscation `"b--i--t--c--h"`. -/
theorem make_fuzzy_regex_separators_witness :
    fuzzyMatchRegion "bitch".toList "b--i--t--c--h".toList = true :=
  (make_fuzzy_regex_separators "bitch".toList "b--i--t--c--h".toList (by decide)).1

/-- `read_wordlist` from `src/fuzzy_match.py`.  File contents are modeled
as the list of lines; `none` models a path for which `os.path.exists` is
false.  Each line is stripped; blank lines and lines starting with `#`
are skipped; surviving terms are lowercased. -/
def readWordlist (file : Option (List (List Char))) : List (List Char) :=
  match file with
  | none => []
  | some lines =>
      lines.filterMap (fun line =>
        if pyStrip line = [] ∨ (pyStrip line).head? = some '#' then none
        else some (pyLower (pyStrip line)))

/-- `DEFAULT_TOXIC` from `src/word_match.py` — the fallback used when the
toxic wordlist file is missing. -/
def DEFAULT_TOXIC : List (List Char) :=
  ["bitch".toList, "ass".toList, "fucker".toList, "kill".toList,
   "slur".toList, "hate".toList]

/-- `DEFAULT_SEXUAL` from `src/word_match.py`. -/
def DEFAULT_SEXUAL : List (List Char) :=
  ["dick".toList, "pussy".toList, "cum".toList, "boobs".toList,
   "rape".toList, "cock".toList]

/-- `_load_wordlist` from `src/word_match.py`: on `FileNotFoundError`
return a copy of the fallback; otherwise keep every line whose `strip()`
is nonempty (`#` lines are NOT skipped here), stripped and lowercased;
an empty result also falls back. -/
def loadWordlist (file : Option (List (List Char))) (fallback : List (List Char)) :
    List (List Char) :=
  match file with
  | none => fallback
  | some lines =>
      let words := (lines.filter (fun line => pyStrip line ≠ [])).map
        (fun line => pyLower (pyStrip line))
      if words = [] then fallback else words

def isWordChar (c : Char) : Bool := isAsciiAlnum c || c = '_'

/-- The regex boundary `\b` between an optional previous character and an
optional current character. -/
def atBoundary (prev cur : Option Char) : Bool :=
  (prev.map isWordChar).getD false != (cur.map isWordChar).getD false

/-- Case-insensitive literal match of `w` at the head of `t`. -/
def matchWordCI : List Char → List Char → Bool
  | [], _ => true
  | _ :: _, [] => false
  | w :: ws, c :: cs => pyLowerChar c == pyLowerChar w && matchWordCI ws cs

/-- Scanner for `pattern.finditer(text)` with
`pattern = \b(w1|w2|...)\b` under `re.IGNORECASE`: at each position with
a leading boundary, the first vocabulary word that matches and has a
trailing boundary wins, and scanning resumes after it.  `fuel` bounds
the recursion (each step consumes at least one unit). -/
def scanVocab (vocab : List (List Char)) :
    Nat → Option Char → Nat → List Char → List (Nat × Nat × List Char)
  | 0, _, _, _ => []
  | _ + 1, _, _, [] => []
  | fuel + 1, prev, pos, c :: cs =>
      match (if atBoundary prev (some c) then
          vocab.find? (fun w => matchWordCI w (c :: cs) &&
            atBoundary ((c :: cs).take w.length).getLast? ((c :: cs).drop w.length).head?)
        else none) with
      | some w =>
          (pos, pos + w.length, (c :: cs).take w.length) ::
            scanVocab vocab fuel ((c :: cs).take w.length).getLast?
              (pos + w.length) ((c :: cs).drop w.length)
      | none => scanVocab vocab fuel (some c) (pos + 1) cs

/-- `WordMatcher.find_spans` given the compiled vocabulary:
`_compile_word_regex([])` builds `(?!x)x`, which matches nothing. -/
def findSpansVocab (vocab : List (List Char)) (text : List Char) :
    List (Nat × Nat × List Char) :=
  if vocab = [] then [] else scanVocab vocab (text.length + 1) none 0 text

/-- `find_exact` from `src/word_match.py`: the matcher's spans tagged
`"exact"`. -/
def findExact (vocab : List (List Char)) (text : List Char) : List Span :=
  (findSpansVocab vocab text).map
    (fun r => ⟨(r.1 : Int), (r.2.1 : Int), String.mk r.2.2, "exact"⟩)

theorem pyLowerChar_idem (c : Char) :
    pyLowerChar (pyLowerChar c) = pyLowerChar c := by
  unfold pyLowerChar
  by_cases h : 65 ≤ c.toNat ∧ c.toNat ≤ 90
  · rw [if_pos h]
    have hn := charToNat_ofNat_small (n := c.toNat + 32) (by omega)
    rw [if_neg (by rw [hn]; omega)]
  · rw [if_neg h, if_neg h]

theorem pyLower_idem (w : List Char) : pyLower (pyLower w) = pyLower w := by
  unfold pyLower
  rw [List.map_map]
  exact List.map_congr_left (fun c _ => pyLowerChar_idem c)

theorem pyLowerChar_eq_hash {d : Char} (h : pyLowerChar d = '#') : d = '#' := by
  unfold pyLowerChar at h
  by_cases hu : 65 ≤ d.toNat ∧ d.toNat ≤ 90
  · rw [if_pos hu] at h
    have hn := charToNat_ofNat_small (n := d.toNat + 32) (by omega)
    have := congrArg Char.toNat h
    rw [hn] at this
    have : d.toNat + 32 = 35 := this
    omega
  · rwa [if_neg hu] at h

/-- C9 counterexample: `word_match._load_wordlist` on a missing file
returns the built-in non-empty default list, not an empty lexicon, and
keeps a `#`-comment line as a term. -/
theorem wordlist_fail_open_counterexample :
    loadWordlist none DEFAULT_TOXIC = DEFAULT_TOXIC ∧
    DEFAULT_TOXIC ≠ [] ∧
    loadWordlist (some ["# comment".toList]) [] = ["# comment".toList] := by
  refine ⟨rfl, by decide, by decide⟩

/-- C9 (amended): `fuzzy_match.read_wordlist` fails open to an empty
lexicon on a missing file and its loaded terms are non-blank, do not
start with `#`, and are case-folded (lowercase-stable);
`word_match._load_wordlist` instead falls back to the caller-supplied
default list on a missing file; an exact matcher built from an empty
lexicon finds no spans in any text. -/
theorem wordlist_fail_open (fb : List (List Char)) (lines : List (List Char))
    (text : List Char) :
    readWordlist none = [] ∧
    loadWordlist none fb = fb ∧
    (∀ w ∈ readWordlist (some lines),
      w ≠ [] ∧ w.head? ≠ some '#' ∧ pyLower w = w) ∧
    findSpansVocab [] text = [] ∧
    findExact [] text = [] := by
  refine ⟨rfl, rfl, ?_, rfl, rfl⟩
  intro w hw
  unfold readWordlist at hw
  rw [List.mem_filterMap] at hw
  obtain ⟨line, _, hf⟩ := hw
  by_cases hcond : pyStrip line = [] ∨ (pyStrip line).head? = some '#'
  · rw [if_pos hcond] at hf
    exact absurd hf (by simp)
  · rw [if_neg hcond] at hf
    rw [Option.some_inj] at hf
    push_neg at hcond
    subst hf
    refine ⟨?_, ?_, pyLower_idem _⟩
    · intro hcon
      apply hcond.1
      have := congrArg List.length hcon
      rw [pyLower, List.length_map] at this
      exact List.eq_nil_of_length_eq_zero this
    · intro hcon
      rw [pyLower, List.head?_map] at hcon
      cases hhd : (pyStrip line).head? with
      | none => rw [hhd] at hcon; simp at hcon
      | some d =>
          rw [hhd] at hcon
          rw [Option.map_some', Option.some_inj] at hcon
          exact hcond.2 (by rw [hhd, pyLowerChar_eq_hash hcon])

/-- Witness for `wordlist_fail_open`: a concrete three-line file —
`" WoRd "`, a blank line, `"# c"` — loads as the single lowercased term
`"word"`, and the empty-lexicon matcher finds nothing in `"bitch"`. -/
theorem wordlist_fail_open_witness :
    readWordlist none = [] ∧
    loadWordlist none DEFAULT_TOXIC = DEFAULT_TOXIC ∧
    ("word".toList ≠ [] ∧ ("word".toList).head? ≠ some '#' ∧
      pyLower "word".toList = "word".toList) ∧
    findSpansVocab [] "bitch".toList = [] := by
  have h := wordlist_fail_open DEFAULT_TOXIC
    [" WoRd ".toList, [], "# c".toList] "bitch".toList
  exact ⟨h.1, h.2.1, h.2.2.1 "word".toList (by decide), h.2.2.2.1⟩
